import Mathlib

/-!
Shallow embedding of `trending/trending.py`.

Numeric values are modelled exactly: series values, weights and the
bisection state are rationals (Python floats stand for real numbers in the
spec's claims), and the weighted geometric mean, which uses real
exponentiation `r ** w`, takes values in `ℝ`.  Fallible code returns
`Except TrendError`; the error constructors mirror the Python exceptions
that each operation can raise.
-/

/-- The exceptions the Python code can raise: the explicit `Exception` for a
short input series, `StatisticsError` from `mean([])`, `ZeroDivisionError`
from `/` and `**`, and `TypeError` from `reduce(mul, [])`. -/
inductive TrendError : Type
  | lengthError
  | statisticsError
  | zeroDivisionError
  | typeError
deriving DecidableEq

/-- `smooth(a, window)`: moving average
`[mean(a[i:i+window]) for i in range(len(a)-window+1)]`.
When `window = 0` every slice `a[i:i+0]` is empty and `mean` raises
`StatisticsError`; when `window > len(a)` the range is empty and the result
is `[]`; otherwise every slice has exactly `window` elements. -/
def smooth (a : List ℚ) (window : ℕ) : Except TrendError (List ℚ) :=
  if window = 0 then .error .statisticsError
  else .ok ((List.range ((a.length : ℤ) - window + 1).toNat).map
    (fun i => ((a.drop i).take window).sum / (window : ℚ)))

/-- `compute_rates(a) = [a[i] / a[i - 1] for i in range(1, len(a))]`.
Raises `ZeroDivisionError` when some denominator `a[i]`, `i < len(a) - 1`,
is zero. -/
def compute_rates (a : List ℚ) : Except TrendError (List ℚ) :=
  if ∃ i ∈ List.range (a.length - 1), a.getD i 0 = 0 then
    .error .zeroDivisionError
  else
    .ok ((List.range (a.length - 1)).map (fun i => a.getD (i + 1) 0 / a.getD i 0))

/-- `compute_decaying_weights(n, p) = [p**(n - i - 1) for i in range(n)]`. -/
def compute_decaying_weights (n : ℕ) (p : ℚ) : List ℚ :=
  (List.range n).map (fun i => p ^ (n - i - 1))

/-- `geom_mean(rates, weights)`:
`weighted = [r**w for r, w in zip(rates, weights)]` followed by
`reduce(mul, weighted)**(1 / sum(weights))`.
Failure cases, in Python evaluation order: `0.0 ** w` with `w < 0` raises
`ZeroDivisionError`; `reduce` of the empty list raises `TypeError`;
`1 / 0.0` raises `ZeroDivisionError`; and a zero base (some `r = 0` with
`w > 0`) raised to the negative power `1/sum` raises `ZeroDivisionError`.
Otherwise the value is `(∏ r_i ^ w_i) ^ (sum weights)⁻¹` over `ℝ`. -/
noncomputable def geom_mean (rates weights : List ℚ) : Except TrendError ℝ :=
  let zipped := rates.zip weights
  if ∃ rw ∈ zipped, rw.1 = 0 ∧ rw.2 < 0 then .error .zeroDivisionError
  else if zipped = [] then .error .typeError
  else if weights.sum = 0 then .error .zeroDivisionError
  else if (∃ rw ∈ zipped, rw.1 = 0 ∧ 0 < rw.2) ∧ weights.sum < 0 then
    .error .zeroDivisionError
  else
    .ok ((zipped.map (fun rw => ((rw.1 : ℚ) : ℝ) ^ ((rw.2 : ℚ) : ℝ))).prod
      ^ (((weights.sum : ℚ) : ℝ))⁻¹)

/-- `trending_score(a, p, window=None, pseudo_count=0)`: validate
`len(a) >= 2`, optionally smooth, optionally add the pseudo-count, then
combine `compute_rates` with `compute_decaying_weights` via `geom_mean`. -/
noncomputable def trending_score (a : List ℚ) (p : ℚ) (window : Option ℕ)
    (pseudo_count : ℚ) : Except TrendError ℝ :=
  if a.length < 2 then .error .lengthError
  else
    match (match window with | none => Except.ok a | some w => smooth a w) with
    | .error err => .error err
    | .ok a1 =>
      let a2 := if 0 < pseudo_count then a1.map (fun x => x + pseudo_count) else a1
      match compute_rates a2 with
      | .error err => .error err
      | .ok rates => geom_mean rates (compute_decaying_weights rates.length p)

/-- `sum_of_finite_geom(r, n) = (1 - r**(n + 1)) / (1 - r)`; the exponent is
an integer, as in Python, where `n - 1` may be `-1` when `n = 0`. -/
def sum_of_finite_geom (r : ℚ) (n : ℤ) : ℚ :=
  (1 - r ^ (n + 1)) / (1 - r)

/-- `sum_of_infinite_geom(r) = 1 / (1 - r)`. -/
def sum_of_infinite_geom (r : ℚ) : ℚ :=
  1 / (1 - r)

/-- `compute_weight_frac(p, n, total_n=None)`: the fraction
`sum_of_finite_geom(p, n - 1) / total_weight` where `total_weight` is the
infinite geometric sum when `total_n` is absent and
`sum_of_finite_geom(p, total_n - 1)` otherwise. -/
def compute_weight_frac (p : ℚ) (n : ℕ) : Option ℕ → ℚ
  | none => sum_of_finite_geom p ((n : ℤ) - 1) / sum_of_infinite_geom p
  | some t => sum_of_finite_geom p ((n : ℤ) - 1) / sum_of_finite_geom p ((t : ℤ) - 1)

/-- The bisection loop of `find_p`, with explicit fuel.  State `(low, high, p)`
mirrors the Python variables; the result pairs the returned `p` with the
number of executions of the loop body.  Each iteration tests
`compute_weight_frac(p, n, total_n)` against the target and halves the
bracket; an exact tie breaks out of the loop returning the current `p`. -/
def findPAux (frac : ℚ) (n : ℕ) (total_n : Option ℕ) (e : ℚ) :
    ℕ → ℚ → ℚ → ℚ → ℚ × ℕ
  | 0, _, _, p => (p, 0)
  | fuel + 1, low, high, p =>
    if e < high - low then
      if frac < compute_weight_frac p n total_n then
        ((findPAux frac n total_n e fuel p high ((p + high) / 2)).1,
          (findPAux frac n total_n e fuel p high ((p + high) / 2)).2 + 1)
      else if compute_weight_frac p n total_n < frac then
        ((findPAux frac n total_n e fuel low p ((low + p) / 2)).1,
          (findPAux frac n total_n e fuel low p ((low + p) / 2)).2 + 1)
      else (p, 1)
    else (p, 0)

/-- `find_p(frac, n, total_n=None, error_bound=1e-6)`: bisection over
`low, high = 0, 1` starting from `p = (low + high) / 2`.  The Python loop
runs until `high - low <= error_bound`; since the bracket width halves each
iteration, `⌈1/error_bound⌉` units of fuel are more than enough (the width
after `k` iterations is `2⁻ᵏ`), and the fuel never runs out. -/
def find_p (frac : ℚ) (n : ℕ) (total_n : Option ℕ) (error_bound : ℚ) : ℚ :=
  (findPAux frac n total_n error_bound ⌈(1 : ℚ) / error_bound⌉₊ 0 1 ((0 + 1) / 2)).1

/-! ### Helper lemmas about geometric sums and decaying weights -/

lemma range_map_sum (f : ℕ → ℚ) (n : ℕ) :
    ((List.range n).map f).sum = ∑ i in Finset.range n, f i := by
  induction n with
  | zero => simp
  | succ m ih => simp [List.range_succ, Finset.sum_range_succ, ih]

lemma compute_decaying_weights_sum (n : ℕ) (p : ℚ) :
    (compute_decaying_weights n p).sum = ∑ i in Finset.range n, p ^ i := by
  unfold compute_decaying_weights
  rw [range_map_sum]
  rw [show (∑ i in Finset.range n, p ^ (n - i - 1)) =
      ∑ i in Finset.range n, p ^ (n - 1 - i) from
    Finset.sum_congr rfl (fun i _ => by rw [Nat.sub_sub, Nat.sub_sub, Nat.add_comm])]
  exact Finset.sum_range_reflect (fun i => p ^ i) n

lemma sum_of_finite_geom_eq (q : ℚ) (hq : q ≠ 1) (n : ℕ) :
    sum_of_finite_geom q ((n : ℤ) - 1) = ∑ i in Finset.range n, q ^ i := by
  unfold sum_of_finite_geom
  rw [geom_sum_eq hq n, sub_add_cancel, zpow_natCast]
  rw [show (1 - q ^ n) = -(q ^ n - 1) by ring, show (1 - q) = -(q - 1) by ring,
    neg_div_neg_eq]

lemma geomS_pos (q : ℚ) (hq : 0 ≤ q) (n : ℕ) (hn : 1 ≤ n) :
    0 < ∑ i in Finset.range n, q ^ i := by
  have h1 : (1 : ℚ) ≤ ∑ i in Finset.range n, q ^ i := by
    have := Finset.single_le_sum (f := fun i => q ^ i)
      (fun i _ => pow_nonneg hq i) (Finset.mem_range.mpr (by omega : 0 < n))
    simpa using this
  linarith

lemma compute_weight_frac_none (q : ℚ) (hq : q ≠ 1) (n : ℕ) :
    compute_weight_frac q n none = 1 - q ^ n := by
  have h1 : (1 : ℚ) - q ≠ 0 := sub_ne_zero.mpr (Ne.symm hq)
  simp only [compute_weight_frac, sum_of_infinite_geom]
  rw [sum_of_finite_geom_eq q hq n, one_div, div_eq_mul_inv, inv_inv]
  calc (∑ i in Finset.range n, q ^ i) * (1 - q)
      = -((∑ i in Finset.range n, q ^ i) * (q - 1)) := by ring
    _ = -(q ^ n - 1) := by rw [geom_sum_mul]
    _ = 1 - q ^ n := by ring

lemma compute_weight_frac_some (q : ℚ) (hq : q ≠ 1) (n t : ℕ) :
    compute_weight_frac q n (some t) =
      (∑ i in Finset.range n, q ^ i) / (∑ i in Finset.range t, q ^ i) := by
  simp only [compute_weight_frac]
  rw [sum_of_finite_geom_eq q hq n, sum_of_finite_geom_eq q hq t]

lemma geomS_nonneg (q : ℚ) (hq : 0 ≤ q) (n : ℕ) :
    0 ≤ ∑ i in Finset.range n, q ^ i :=
  Finset.sum_nonneg fun i _ => pow_nonneg hq i

lemma geomS_mono (n : ℕ) (p1 p2 : ℚ) (h0 : 0 ≤ p1) (h12 : p1 ≤ p2) :
    ∑ i in Finset.range n, p1 ^ i ≤ ∑ i in Finset.range n, p2 ^ i :=
  Finset.sum_le_sum fun i _ => pow_le_pow_left₀ h0 h12 i

lemma geomS_cross (n : ℕ) (p1 p2 : ℚ) (h0 : 0 ≤ p1) (h12 : p1 ≤ p2) :
    p1 ^ n * ∑ i in Finset.range n, p2 ^ i ≤
      p2 ^ n * ∑ i in Finset.range n, p1 ^ i := by
  rw [Finset.mul_sum, Finset.mul_sum]
  refine Finset.sum_le_sum fun i hi => ?_
  have hin : i ≤ n := le_of_lt (Finset.mem_range.mp hi)
  have hp2 : 0 ≤ p2 := le_trans h0 h12
  have e1 : p1 ^ n = p1 ^ (n - i) * p1 ^ i := by
    rw [← pow_add]
    congr 1
    omega
  have e2 : p2 ^ n = p2 ^ (n - i) * p2 ^ i := by
    rw [← pow_add]
    congr 1
    omega
  rw [e1, e2]
  calc p1 ^ (n - i) * p1 ^ i * p2 ^ i
      ≤ p2 ^ (n - i) * p1 ^ i * p2 ^ i := by
        refine mul_le_mul_of_nonneg_right
          (mul_le_mul_of_nonneg_right (pow_le_pow_left₀ h0 h12 _)
            (pow_nonneg h0 i)) (pow_nonneg hp2 i)
    _ = p2 ^ (n - i) * p2 ^ i * p1 ^ i := by ring

lemma geomS_add (p : ℚ) (n m : ℕ) :
    ∑ i in Finset.range (n + m), p ^ i =
      (∑ i in Finset.range n, p ^ i) + p ^ n * ∑ i in Finset.range m, p ^ i := by
  induction m with
  | zero => simp
  | succ k ih =>
    rw [show n + (k + 1) = (n + k) + 1 by omega, Finset.sum_range_succ, ih,
      Finset.sum_range_succ]
    rw [pow_add]
    ring

/-- Claim C2: for every fixed recent count `n ≥ 1` and fixed total count
(either a finite total `t ≥ n` or absent, meaning infinite),
`compute_weight_frac` is non-increasing in `p`: whenever
`0 ≤ p1 ≤ p2 < 1` (the function is undefined at `p = 1`, where Python
divides by zero), `compute_weight_frac p2 n total_n ≤
compute_weight_frac p1 n total_n`. -/
theorem compute_weight_frac_antitone (p1 p2 : ℚ) (n : ℕ) (total_n : Option ℕ)
    (hn : 1 ≤ n) (ht : ∀ t ∈ total_n, n ≤ t)
    (h0 : 0 ≤ p1) (h12 : p1 ≤ p2) (h1 : p2 < 1) :
    compute_weight_frac p2 n total_n ≤ compute_weight_frac p1 n total_n := by
  have hp2 : 0 ≤ p2 := le_trans h0 h12
  have hne1 : p1 ≠ 1 := ne_of_lt (lt_of_le_of_lt h12 h1)
  have hne2 : p2 ≠ 1 := ne_of_lt h1
  cases total_n with
  | none =>
    rw [compute_weight_frac_none p1 hne1 n, compute_weight_frac_none p2 hne2 n]
    have := pow_le_pow_left₀ h0 h12 n
    linarith
  | some t =>
    have hnt : n ≤ t := ht t rfl
    rw [compute_weight_frac_some p1 hne1 n t, compute_weight_frac_some p2 hne2 n t]
    have htpos1 := geomS_pos p1 h0 t (le_trans hn hnt)
    have htpos2 := geomS_pos p2 hp2 t (le_trans hn hnt)
    rw [div_le_div_iff₀ htpos2 htpos1]
    obtain ⟨m, rfl⟩ : ∃ m, t = n + m := ⟨t - n, by omega⟩
    rw [geomS_add p1 n m, geomS_add p2 n m]
    have main : (p1 ^ n * ∑ i in Finset.range n, p2 ^ i) *
        (∑ i in Finset.range m, p1 ^ i) ≤
        (p2 ^ n * ∑ i in Finset.range n, p1 ^ i) *
        (∑ i in Finset.range m, p2 ^ i) :=
      mul_le_mul (geomS_cross n p1 p2 h0 h12) (geomS_mono m p1 p2 h0 h12)
        (geomS_nonneg p1 h0 m)
        (mul_nonneg (pow_nonneg hp2 n) (geomS_nonneg p1 h0 n))
    nlinarith [main]

/-- Witness for claim C2 at `p1 = 0`, `p2 = 1/2`, `n = 5`, `total_n = 10`. -/
theorem compute_weight_frac_antitone_witness :
    (1 ≤ 5 ∧ (0 : ℚ) ≤ 0 ∧ (0 : ℚ) ≤ 1/2 ∧ (1/2 : ℚ) < 1) ∧
      compute_weight_frac (1/2) 5 (some 10) ≤ compute_weight_frac 0 5 (some 10) :=
  ⟨⟨by norm_num, by norm_num, by norm_num, by norm_num⟩,
    compute_weight_frac_antitone 0 (1/2) 5 (some 10) (by norm_num)
      (by intro t htm; simp at htm; omega) (by norm_num) (by norm_num) (by norm_num)⟩

/-! ### Indexing helpers, rates and weights -/

lemma range_map_getD (f : ℕ → ℚ) (n i : ℕ) (h : i < n) :
    ((List.range n).map f).getD i 0 = f i := by
  rw [List.getD_eq_getElem _ 0 (by simpa using h)]
  rw [List.getElem_map, List.getElem_range]

lemma compute_rates_ok (a : List ℚ) (hz : ∀ i, i < a.length - 1 → a.getD i 0 ≠ 0) :
    compute_rates a =
      .ok ((List.range (a.length - 1)).map fun i => a.getD (i + 1) 0 / a.getD i 0) := by
  unfold compute_rates
  rw [if_neg]
  rintro ⟨i, hi, h0⟩
  exact hz i (by simpa using hi) h0

/-- Claim C5: for every series `a` of length at least 1 in which every
element except possibly the last is nonzero (indices `i < len - 1`),
`compute_rates a` succeeds and returns a list of length `len - 1` whose
element `i` is `a[i+1] / a[i]`; in particular it returns the empty list for
a length-1 input. -/
theorem compute_rates_spec (a : List ℚ) (ha : 1 ≤ a.length)
    (hz : ∀ i, i < a.length - 1 → a.getD i 0 ≠ 0) :
    ∃ l, compute_rates a = .ok l ∧ l.length = a.length - 1 ∧
      ∀ i, i < a.length - 1 → l.getD i 0 = a.getD (i + 1) 0 / a.getD i 0 :=
  ⟨_, compute_rates_ok a hz, by simp, fun i hi => range_map_getD _ _ i hi⟩

/-- Witness for claim C5 at `a = [1, 2, 4]`. -/
theorem compute_rates_spec_witness :
    (1 ≤ ([1, 2, 4] : List ℚ).length ∧
      (∀ i, i < ([1, 2, 4] : List ℚ).length - 1 → ([1, 2, 4] : List ℚ).getD i 0 ≠ 0)) ∧
    ∃ l, compute_rates [1, 2, 4] = .ok l ∧ l.length = ([1, 2, 4] : List ℚ).length - 1 ∧
      ∀ i, i < ([1, 2, 4] : List ℚ).length - 1 →
        l.getD i 0 = ([1, 2, 4] : List ℚ).getD (i + 1) 0 / ([1, 2, 4] : List ℚ).getD i 0 :=
  ⟨⟨by norm_num, by intro i hi; norm_num at hi; interval_cases i <;> norm_num⟩,
    compute_rates_spec [1, 2, 4] (by norm_num)
      (by intro i hi; norm_num at hi; interval_cases i <;> norm_num)⟩

/-- Claim C4: for every positive `n` and every `p ∈ [0, 1]`,
`compute_decaying_weights n p` has exactly `n` entries with entry
`i` equal to `p ^ (n - 1 - i)`, so the last entry (index `n - 1`) is `1`;
and for `p ∈ (0, 1)` the sum of the weights equals
`sum_of_finite_geom p (n - 1)` (exactly, in rational arithmetic). -/
theorem compute_decaying_weights_spec (n : ℕ) (p : ℚ) (hn : 1 ≤ n)
    (h0 : 0 ≤ p) (h1 : p ≤ 1) :
    (compute_decaying_weights n p).length = n ∧
    (∀ i, i < n → (compute_decaying_weights n p).getD i 0 = p ^ (n - 1 - i)) ∧
    (compute_decaying_weights n p).getD (n - 1) 0 = 1 ∧
    (0 < p → p < 1 →
      (compute_decaying_weights n p).sum = sum_of_finite_geom p ((n : ℤ) - 1)) := by
  have hget : ∀ i, i < n → (compute_decaying_weights n p).getD i 0 = p ^ (n - 1 - i) := by
    intro i hi
    unfold compute_decaying_weights
    rw [range_map_getD _ _ i hi]
    congr 1
    omega
  refine ⟨by simp [compute_decaying_weights], hget, ?_, fun hp0 hp1 => ?_⟩
  · rw [hget (n - 1) (by omega), show n - 1 - (n - 1) = 0 by omega, pow_zero]
  · rw [compute_decaying_weights_sum, sum_of_finite_geom_eq p (ne_of_lt hp1) n]

/-- Witness for claim C4 at `n = 3`, `p = 1/2`. -/
theorem compute_decaying_weights_spec_witness :
    (1 ≤ 3 ∧ (0 : ℚ) ≤ 1/2 ∧ (1/2 : ℚ) ≤ 1) ∧
    ((compute_decaying_weights 3 (1/2)).length = 3 ∧
    (∀ i, i < 3 → (compute_decaying_weights 3 (1/2)).getD i 0 = (1/2 : ℚ) ^ (3 - 1 - i)) ∧
    (compute_decaying_weights 3 (1/2)).getD (3 - 1) 0 = 1 ∧
    ((0 : ℚ) < 1/2 → (1/2 : ℚ) < 1 →
      (compute_decaying_weights 3 (1/2)).sum = sum_of_finite_geom (1/2) ((3 : ℤ) - 1))) :=
  ⟨⟨by norm_num, by norm_num, by norm_num⟩,
    compute_decaying_weights_spec 3 (1/2) (by norm_num) (by norm_num) (by norm_num)⟩

lemma compute_decaying_weights_length (n : ℕ) (p : ℚ) :
    (compute_decaying_weights n p).length = n := by
  simp [compute_decaying_weights]

lemma compute_decaying_weights_sum_ge_one (n : ℕ) (p : ℚ) (hn : 1 ≤ n) (hp : 0 ≤ p) :
    1 ≤ (compute_decaying_weights n p).sum := by
  rw [compute_decaying_weights_sum]
  have := Finset.single_le_sum (f := fun i => p ^ i)
    (fun i _ => pow_nonneg hp i) (Finset.mem_range.mpr (by omega : 0 < n))
  simpa using this

lemma geom_mean_of_ones (rates weights : List ℚ) (hne : rates ≠ [])
    (hlen : weights.length = rates.length)
    (hr : ∀ r ∈ rates, r = 1) (hsum : weights.sum ≠ 0) :
    geom_mean rates weights = .ok 1 := by
  have hz : ∀ rw ∈ rates.zip weights, rw.1 = (1 : ℚ) := fun rw hrw =>
    hr rw.1 (List.of_mem_zip hrw).1
  have hzipne : rates.zip weights ≠ [] := by
    intro hnil
    have hh := congrArg List.length hnil
    rw [List.length_zip, hlen, min_self] at hh
    simp at hh
    exact hne hh
  have hc1 : ¬ ∃ rw ∈ rates.zip weights, rw.1 = 0 ∧ rw.2 < 0 := by
    rintro ⟨rw1, hrw, h0, _⟩
    rw [hz rw1 hrw] at h0
    norm_num at h0
  have hc4 : ¬ ((∃ rw ∈ rates.zip weights, rw.1 = 0 ∧ 0 < rw.2) ∧ weights.sum < 0) := by
    rintro ⟨⟨rw1, hrw, h0, _⟩, _⟩
    rw [hz rw1 hrw] at h0
    norm_num at h0
  unfold geom_mean
  rw [if_neg hc1, if_neg hzipne, if_neg hsum, if_neg hc4]
  have hprod : ((rates.zip weights).map
      (fun rw => ((rw.1 : ℚ) : ℝ) ^ ((rw.2 : ℚ) : ℝ))).prod = 1 := by
    refine List.prod_eq_one fun x hx => ?_
    obtain ⟨pr, hpr, rfl⟩ := List.mem_map.mp hx
    rw [hz pr hpr]
    push_cast
    exact Real.one_rpow _
  rw [hprod, Real.one_rpow]

lemma trending_score_nowindow (a : List ℚ) (p : ℚ) (hlen : ¬ a.length < 2) :
    trending_score a p none 0 =
      match compute_rates a with
      | .error err => .error err
      | .ok rates => geom_mean rates (compute_decaying_weights rates.length p) := by
  unfold trending_score
  rw [if_neg hlen]
  norm_num

/-- Claim C1: for every series of length at least 2 whose values all equal
the same nonzero constant `c`, and every decay parameter `p ∈ [0, 1]`,
`trending_score` without window and without pseudo-count returns exactly 1:
every consecutive rate is `c / c = 1`, so the weighted geometric mean is 1. -/
theorem trending_score_constant (a : List ℚ) (c p : ℚ) (hc : c ≠ 0)
    (hlen : 2 ≤ a.length) (hconst : ∀ x ∈ a, x = c) (h0 : 0 ≤ p) (h1 : p ≤ 1) :
    trending_score a p none 0 = .ok 1 := by
  have hz : ∀ i, i < a.length - 1 → a.getD i 0 ≠ 0 := by
    intro i hi
    have hmem : a.getD i 0 ∈ a := by
      rw [List.getD_eq_getElem a 0 (by omega)]
      exact List.getElem_mem ..
    rw [hconst _ hmem]
    exact hc
  have hcr := compute_rates_ok a hz
  rw [trending_score_nowindow a p (by omega), hcr]
  show geom_mean _ _ = _
  set rates := (List.range (a.length - 1)).map
    (fun i => a.getD (i + 1) 0 / a.getD i 0) with hrates
  have hrlen : rates.length = a.length - 1 := by simp [hrates]
  have hrne : rates ≠ [] := by
    intro hnil
    rw [hnil] at hrlen
    simp at hrlen
    omega
  have hrones : ∀ r ∈ rates, r = 1 := by
    intro r hmem
    obtain ⟨i, hi, rfl⟩ := List.mem_map.mp hmem
    have hi' : i < a.length - 1 := by simpa using hi
    have h1m : a.getD (i + 1) 0 ∈ a := by
      rw [List.getD_eq_getElem a 0 (by omega)]
      exact List.getElem_mem ..
    have h2m : a.getD i 0 ∈ a := by
      rw [List.getD_eq_getElem a 0 (by omega)]
      exact List.getElem_mem ..
    rw [hconst _ h1m, hconst _ h2m, div_self hc]
  refine geom_mean_of_ones rates _ hrne (compute_decaying_weights_length _ p) hrones ?_
  have := compute_decaying_weights_sum_ge_one rates.length p (by omega) h0
  linarith

/-- Witness for claim C1 at the docstring example `[5, 5, 5]` with `p = 4/5`. -/
theorem trending_score_constant_witness :
    ((5 : ℚ) ≠ 0 ∧ 2 ≤ ([5, 5, 5] : List ℚ).length ∧ (0 : ℚ) ≤ 4/5 ∧ (4/5 : ℚ) ≤ 1) ∧
      trending_score [5, 5, 5] (4/5) none 0 = .ok 1 :=
  ⟨⟨by norm_num, by norm_num, by norm_num, by norm_num⟩,
    trending_score_constant [5, 5, 5] 5 (4/5) (by norm_num) (by norm_num)
      (by intro x hx; simpa using hx) (by norm_num) (by norm_num)⟩

/-! ### Error propagation through trending_score -/

lemma trending_score_none_eq (a : List ℚ) (p pc : ℚ) (hlen : ¬ a.length < 2) :
    trending_score a p none pc =
      match compute_rates (if 0 < pc then a.map (fun x => x + pc) else a) with
      | .error err => .error err
      | .ok rates => geom_mean rates (compute_decaying_weights rates.length p) := by
  unfold trending_score
  rw [if_neg hlen]

lemma trending_score_some_eq (a : List ℚ) (p pc : ℚ) (w : ℕ) (hlen : ¬ a.length < 2) :
    trending_score a p (some w) pc =
      match smooth a w with
      | .error err => .error err
      | .ok a1 =>
        match compute_rates (if 0 < pc then a1.map (fun x => x + pc) else a1) with
        | .error err => .error err
        | .ok rates => geom_mean rates (compute_decaying_weights rates.length p) := by
  unfold trending_score
  rw [if_neg hlen]

lemma smooth_error_kind (a : List ℚ) (w : ℕ) (err : TrendError)
    (h : smooth a w = .error err) : err = .statisticsError := by
  unfold smooth at h
  split_ifs at h
  simp only [Except.error.injEq] at h
  exact h.symm

lemma compute_rates_error_kind (a : List ℚ) (err : TrendError)
    (h : compute_rates a = .error err) : err = .zeroDivisionError := by
  unfold compute_rates at h
  split_ifs at h
  simp only [Except.error.injEq] at h
  exact h.symm

lemma geom_mean_ne_lengthError (rates weights : List ℚ) :
    geom_mean rates weights ≠ .error .lengthError := by
  unfold geom_mean
  by_cases h1 : ∃ rw ∈ rates.zip weights, rw.1 = 0 ∧ rw.2 < 0
  · rw [if_pos h1]
    simp
  rw [if_neg h1]
  by_cases h2 : rates.zip weights = []
  · rw [if_pos h2]
    simp
  rw [if_neg h2]
  by_cases h3 : weights.sum = 0
  · rw [if_pos h3]
    simp
  rw [if_neg h3]
  by_cases h4 : (∃ rw ∈ rates.zip weights, rw.1 = 0 ∧ 0 < rw.2) ∧ weights.sum < 0
  · rw [if_pos h4]
    simp
  rw [if_neg h4]
  simp

/-- Claim C7: `trending_score` raises the invalid-input error exactly when
the series has fewer than 2 values, whatever the other arguments are.
The length test is the first step of the function, so for a series of
length at least 2 the result is never the length error: any failure comes
from a later step (smoothing, rate computation or the combiner), each of
which produces a different error. -/
theorem trending_score_length_check (a : List ℚ) (p : ℚ) (window : Option ℕ)
    (pseudo_count : ℚ) :
    trending_score a p window pseudo_count = .error .lengthError ↔ a.length < 2 := by
  rcases Nat.lt_or_ge a.length 2 with hlt | hge
  · exact ⟨fun _ => hlt, fun h => by unfold trending_score; rw [if_pos h]⟩
  · have hlen : ¬ a.length < 2 := by omega
    have hne : trending_score a p window pseudo_count ≠ .error .lengthError := by
      cases window with
      | none =>
        rw [trending_score_none_eq a p pseudo_count hlen]
        cases hcr : compute_rates (if 0 < pseudo_count then
            a.map (fun x => x + pseudo_count) else a) with
        | error err =>
          have := compute_rates_error_kind _ _ hcr
          subst this
          simp
        | ok rates =>
          simp only []
          exact geom_mean_ne_lengthError _ _
      | some w =>
        rw [trending_score_some_eq a p pseudo_count w hlen]
        cases hsw : smooth a w with
        | error err =>
          have := smooth_error_kind _ _ _ hsw
          subst this
          simp
        | ok a1 =>
          simp only []
          cases hcr : compute_rates (if 0 < pseudo_count then
              a1.map (fun x => x + pseudo_count) else a1) with
          | error err =>
            have := compute_rates_error_kind _ _ hcr
            subst this
            simp
          | ok rates =>
            simp only []
            exact geom_mean_ne_lengthError _ _
    exact ⟨fun h => absurd h hne, fun h => by omega⟩

/-! ### Claim C8: failure behaviour of the combiner -/

/-- Claim C8 counterexample: with the same-length inputs `rates = [2]` and
`weights = [-1]` the weight sum is negative, yet `geom_mean` does not fail:
Python evaluates `2.0 ** -1.0 = 0.5`, `1 / -1.0 = -1.0` and
`0.5 ** -1.0 = 2.0` without raising, so the claim that a negative weight sum
always raises is false. -/
theorem geom_mean_negative_sum_succeeds :
    ([(-1 : ℚ)] : List ℚ).sum < 0 ∧ geom_mean [2] [-1] = .ok 2 := by
  constructor
  · norm_num
  · unfold geom_mean
    norm_num [List.zip]

/-- Claim C8 amended: `geom_mean rates weights` fails (raises an error)
whenever the sum of the weights is exactly zero, for every pair of
same-length input lists; a strictly negative sum does not by itself cause
failure. -/
theorem geom_mean_zero_sum_fails (rates weights : List ℚ)
    (hlen : rates.length = weights.length) (hsum : weights.sum = 0) :
    ∃ err, geom_mean rates weights = .error err := by
  unfold geom_mean
  by_cases h1 : ∃ rw ∈ rates.zip weights, rw.1 = 0 ∧ rw.2 < 0
  · rw [if_pos h1]
    exact ⟨_, rfl⟩
  rw [if_neg h1]
  by_cases h2 : rates.zip weights = []
  · rw [if_pos h2]
    exact ⟨_, rfl⟩
  rw [if_neg h2, if_pos hsum]
  exact ⟨_, rfl⟩

/-- Witness for the amended claim C8 at `rates = [2, 3]`, `weights = [1, -1]`. -/
theorem geom_mean_zero_sum_fails_witness :
    (([2, 3] : List ℚ).length = ([1, -1] : List ℚ).length ∧
      ([1, -1] : List ℚ).sum = 0) ∧
      ∃ err, geom_mean [2, 3] [1, -1] = .error err :=
  ⟨⟨by norm_num, by norm_num⟩, geom_mean_zero_sum_fails [2, 3] [1, -1] (by norm_num) (by norm_num)⟩

/-! ### Claim C9: which smoothing windows are valid -/

lemma getD_mem_of_lt (l : List ℚ) (i : ℕ) (h : i < l.length) : l.getD i 0 ∈ l := by
  rw [List.getD_eq_getElem l 0 h]
  exact List.getElem_mem ..

lemma geom_mean_ok_of_pos (rates : List ℚ) (p : ℚ) (hp : 0 < p) (hne : rates ≠ []) :
    ∃ x, geom_mean rates (compute_decaying_weights rates.length p) = .ok x := by
  set weights := compute_decaying_weights rates.length p with hwdef
  have hwlen : weights.length = rates.length := compute_decaying_weights_length ..
  have hwpos : ∀ w ∈ weights, 0 < w := by
    intro w hw
    obtain ⟨i, hi, rfl⟩ := List.mem_map.mp hw
    exact pow_pos hp _
  have hwne : weights ≠ [] := by
    intro h0
    rw [h0] at hwlen
    simp at hwlen
    exact hne (List.length_eq_zero.mp hwlen.symm)
  have hsum : 0 < weights.sum := List.sum_pos _ hwpos hwne
  have hzipne : rates.zip weights ≠ [] := by
    intro hnil
    have hh := congrArg List.length hnil
    rw [List.length_zip, hwlen, min_self] at hh
    simp at hh
    exact hne hh
  have hc1 : ¬ ∃ rw ∈ rates.zip weights, rw.1 = 0 ∧ rw.2 < 0 := by
    rintro ⟨rw1, hrw, _, hneg⟩
    exact absurd hneg (not_lt.mpr (le_of_lt (hwpos _ (List.of_mem_zip hrw).2)))
  have hc4 : ¬ ((∃ rw ∈ rates.zip weights, rw.1 = 0 ∧ 0 < rw.2) ∧ weights.sum < 0) :=
    fun hh => absurd hh.2 (not_lt.mpr (le_of_lt hsum))
  unfold geom_mean
  rw [if_neg hc1, if_neg hzipne, if_neg (Ne.symm (ne_of_lt hsum)), if_neg hc4]
  exact ⟨_, rfl⟩

lemma smooth_ok (a : List ℚ) (w : ℕ) (hw : w ≠ 0) :
    smooth a w = .ok ((List.range ((a.length : ℤ) - w + 1).toNat).map
      (fun i => ((a.drop i).take w).sum / (w : ℚ))) := by
  unfold smooth
  rw [if_neg hw]

lemma smooth_pos (a : List ℚ) (w : ℕ) (hw1 : 1 ≤ w) (hw2 : w ≤ a.length)
    (hpos : ∀ x ∈ a, 0 < x) :
    ∀ y ∈ (List.range ((a.length : ℤ) - w + 1).toNat).map
      (fun i => ((a.drop i).take w).sum / (w : ℚ)), 0 < y := by
  intro y hy
  obtain ⟨i, hi, rfl⟩ := List.mem_map.mp hy
  have hi' : i < ((a.length : ℤ) - w + 1).toNat := by simpa using hi
  have hslice : ((a.drop i).take w).length = min w (a.length - i) := by
    rw [List.length_take, List.length_drop]
  have hne : (a.drop i).take w ≠ [] := by
    intro h0
    have hl := congrArg List.length h0
    rw [hslice] at hl
    simp at hl
    omega
  have hsub : ∀ x ∈ (a.drop i).take w, 0 < x := fun x hx =>
    hpos x (List.mem_of_mem_drop (List.mem_of_mem_take hx))
  exact div_pos (List.sum_pos _ hsub hne) (by exact_mod_cast hw1)

/-- Claim C9 counterexample: for the all-positive series `[1, 2]` with
`p = 1` and window `w = len(a) = 2`, `trending_score` does not succeed:
smoothing leaves a single value, the rate list is empty, and
`reduce(mul, [])` raises a `TypeError`.  So a window equal to the series
length is not a valid input. -/
theorem trending_score_full_window_fails :
    trending_score [1, 2] 1 (some 2) 0 = .error .typeError := by
  unfold trending_score smooth compute_rates
  norm_num [List.range_succ]
  unfold geom_mean
  norm_num

/-- Claim C9 amended: for every series of length at least 2 with all values
positive, every `p ∈ (0, 1]` and every smoothing window `w` with
`1 ≤ w ≤ len(a) - 1`, `trending_score a p (some w) 0` succeeds and returns
a scalar; the upper bound must be `len(a) - 1`, not `len(a)`, because a
full-length window leaves no rates to combine. -/
theorem trending_score_window_ok (a : List ℚ) (p : ℚ) (w : ℕ)
    (hpos : ∀ x ∈ a, 0 < x) (hlen : 2 ≤ a.length)
    (hp0 : 0 < p) (hp1 : p ≤ 1) (hw1 : 1 ≤ w) (hw2 : w ≤ a.length - 1) :
    ∃ x, trending_score a p (some w) 0 = .ok x := by
  rw [trending_score_some_eq a p 0 w (by omega)]
  rw [smooth_ok a w (by omega)]
  simp only []
  rw [if_neg (show ¬ (0 : ℚ) < 0 by norm_num)]
  set b := (List.range ((a.length : ℤ) - w + 1).toNat).map
    (fun i => ((a.drop i).take w).sum / (w : ℚ)) with hb
  have hbpos : ∀ y ∈ b, 0 < y := smooth_pos a w hw1 (by omega) hpos
  have hblen : b.length = ((a.length : ℤ) - w + 1).toNat := by
    simp [hb]
  have hblen2 : 2 ≤ b.length := by
    rw [hblen]
    omega
  have hbz : ∀ i, i < b.length - 1 → b.getD i 0 ≠ 0 := by
    intro i hi
    exact Ne.symm (ne_of_lt (hbpos _ (getD_mem_of_lt b i (by omega))))
  rw [compute_rates_ok b hbz]
  simp only []
  apply geom_mean_ok_of_pos _ p hp0
  intro h0
  have hh := congrArg List.length h0
  simp at hh
  omega

/-- Witness for the amended claim C9 at `a = [1, 2, 4]`, `p = 1`, `w = 1`. -/
theorem trending_score_window_ok_witness :
    ((∀ x ∈ ([1, 2, 4] : List ℚ), 0 < x) ∧ 2 ≤ ([1, 2, 4] : List ℚ).length ∧
      (0 : ℚ) < 1 ∧ (1 : ℚ) ≤ 1 ∧ 1 ≤ 1 ∧ 1 ≤ ([1, 2, 4] : List ℚ).length - 1) ∧
      ∃ x, trending_score [1, 2, 4] 1 (some 1) 0 = .ok x :=
  ⟨⟨by intro x hx; simp at hx; rcases hx with rfl | rfl | rfl <;> norm_num,
    by norm_num, by norm_num, by norm_num, by norm_num, by norm_num⟩,
    trending_score_window_ok [1, 2, 4] 1 1
      (by intro x hx; simp at hx; rcases hx with rfl | rfl | rfl <;> norm_num)
      (by norm_num) (by norm_num) (by norm_num) (by norm_num) (by norm_num)⟩

/-! ### The bisection loop: invariants, iteration count, calibration -/

lemma findPAux_zero (frac : ℚ) (n : ℕ) (tn : Option ℕ) (e low high p : ℚ) :
    findPAux frac n tn e 0 low high p = (p, 0) := rfl

lemma findPAux_succ (frac : ℚ) (n : ℕ) (tn : Option ℕ) (e : ℚ) (fuel : ℕ)
    (low high p : ℚ) :
    findPAux frac n tn e (fuel + 1) low high p =
      if e < high - low then
        if frac < compute_weight_frac p n tn then
          ((findPAux frac n tn e fuel p high ((p + high) / 2)).1,
            (findPAux frac n tn e fuel p high ((p + high) / 2)).2 + 1)
        else if compute_weight_frac p n tn < frac then
          ((findPAux frac n tn e fuel low p ((low + p) / 2)).1,
            (findPAux frac n tn e fuel low p ((low + p) / 2)).2 + 1)
        else (p, 1)
      else (p, 0) := rfl

lemma findPAux_mem_Ioo (frac : ℚ) (n : ℕ) (tn : Option ℕ) (e : ℚ) :
    ∀ (fuel : ℕ) (low high p : ℚ), 0 ≤ low → high ≤ 1 → low < p → p < high →
      0 < (findPAux frac n tn e fuel low high p).1 ∧
        (findPAux frac n tn e fuel low high p).1 < 1 := by
  intro fuel
  induction fuel with
  | zero =>
    intro low high p h0 h1 hlp hph
    rw [findPAux_zero]
    exact ⟨lt_of_le_of_lt h0 hlp, lt_of_lt_of_le hph h1⟩
  | succ f ih =>
    intro low high p h0 h1 hlp hph
    rw [findPAux_succ]
    by_cases hc : e < high - low
    · rw [if_pos hc]
      by_cases hgt : frac < compute_weight_frac p n tn
      · rw [if_pos hgt]
        have := ih p high ((p + high) / 2) (le_of_lt (lt_of_le_of_lt h0 hlp)) h1
          (by linarith) (by linarith)
        exact ⟨this.1, this.2⟩
      · rw [if_neg hgt]
        by_cases hlt : compute_weight_frac p n tn < frac
        · rw [if_pos hlt]
          have := ih low p ((low + p) / 2) h0 (le_of_lt (lt_of_lt_of_le hph h1))
            (by linarith) (by linarith)
          exact ⟨this.1, this.2⟩
        · rw [if_neg hlt]
          exact ⟨lt_of_le_of_lt h0 hlp, lt_of_lt_of_le hph h1⟩
    · rw [if_neg hc]
      exact ⟨lt_of_le_of_lt h0 hlp, lt_of_lt_of_le hph h1⟩

/-- Claim C10: the bisection bracket always satisfies
`0 ≤ low < p < high ≤ 1` (established here as the loop invariant of
`findPAux`, starting from `low = 0`, `high = 1`, `p = 1/2`), so `find_p`
returns a value strictly inside `(0, 1)` for every input — it never
returns exactly `0` or exactly `1`, even when the target fraction is
infeasible for the given `n` and `total_n`. -/
theorem find_p_mem_open_unit_interval (frac : ℚ) (n : ℕ) (total_n : Option ℕ)
    (error_bound : ℚ) :
    0 < find_p frac n total_n error_bound ∧ find_p frac n total_n error_bound < 1 := by
  unfold find_p
  exact findPAux_mem_Ioo frac n total_n error_bound _ 0 1 ((0 + 1) / 2)
    (by norm_num) (by norm_num) (by norm_num) (by norm_num)

lemma findPAux_count_le (frac : ℚ) (n : ℕ) (tn : Option ℕ) (e : ℚ) :
    ∀ (k fuel : ℕ) (low high p : ℚ), p = (low + high) / 2 →
      high - low ≤ 2 ^ k * e →
      (findPAux frac n tn e fuel low high p).2 ≤ k := by
  intro k
  induction k with
  | zero =>
    intro fuel low high p hp hw
    rw [pow_zero, one_mul] at hw
    cases fuel with
    | zero => rw [findPAux_zero]
    | succ f => rw [findPAux_succ, if_neg (not_lt.mpr hw)]
  | succ k ih =>
    intro fuel low high p hp hw
    rw [pow_succ] at hw
    cases fuel with
    | zero =>
      rw [findPAux_zero]
      omega
    | succ f =>
      rw [findPAux_succ]
      by_cases hc : e < high - low
      · rw [if_pos hc]
        by_cases hgt : frac < compute_weight_frac p n tn
        · rw [if_pos hgt]
          have hrec := ih f p high ((p + high) / 2) rfl (by subst hp; linarith)
          simp only []
          omega
        · rw [if_neg hgt]
          by_cases hlt : compute_weight_frac p n tn < frac
          · rw [if_pos hlt]
            have hrec := ih f low p ((low + p) / 2) rfl (by subst hp; linarith)
            simp only []
            omega
          · rw [if_neg hlt]
            simp only []
            omega
      · rw [if_neg hc]
        simp only []
        omega

lemma findPAux_stable (frac : ℚ) (n : ℕ) (tn : Option ℕ) (e : ℚ) :
    ∀ (k fuel1 fuel2 : ℕ) (low high p : ℚ), p = (low + high) / 2 →
      high - low ≤ 2 ^ k * e → k ≤ fuel1 → k ≤ fuel2 →
      findPAux frac n tn e fuel1 low high p =
        findPAux frac n tn e fuel2 low high p := by
  intro k
  induction k with
  | zero =>
    intro fuel1 fuel2 low high p hp hw h1 h2
    rw [pow_zero, one_mul] at hw
    have hc : ¬ e < high - low := not_lt.mpr hw
    cases fuel1 with
    | zero =>
      cases fuel2 with
      | zero => rfl
      | succ f2 => rw [findPAux_zero, findPAux_succ, if_neg hc]
    | succ f1 =>
      cases fuel2 with
      | zero => rw [findPAux_zero, findPAux_succ, if_neg hc]
      | succ f2 => rw [findPAux_succ, findPAux_succ, if_neg hc, if_neg hc]
  | succ k ih =>
    intro fuel1 fuel2 low high p hp hw h1 h2
    rw [pow_succ] at hw
    cases fuel1 with
    | zero => exact absurd h1 (by omega)
    | succ f1 =>
      cases fuel2 with
      | zero => exact absurd h2 (by omega)
      | succ f2 =>
        rw [findPAux_succ, findPAux_succ]
        by_cases hc : e < high - low
        · rw [if_pos hc, if_pos hc]
          by_cases hgt : frac < compute_weight_frac p n tn
          · rw [if_pos hgt, if_pos hgt,
              ih f1 f2 p high ((p + high) / 2) rfl (by subst hp; linarith)
                (by omega) (by omega)]
          · rw [if_neg hgt, if_neg hgt]
            by_cases hlt : compute_weight_frac p n tn < frac
            · rw [if_pos hlt, if_pos hlt,
                ih f1 f2 low p ((low + p) / 2) rfl (by subst hp; linarith)
                  (by omega) (by omega)]
            · rw [if_neg hlt, if_neg hlt]
        · rw [if_neg hc, if_neg hc]

lemma one_le_two_pow_clog_mul (e : ℚ) (he : 0 < e) :
    1 ≤ 2 ^ (Nat.clog 2 ⌈(1 : ℚ) / e⌉₊) * e := by
  have h1 : (1 : ℚ) / e ≤ (⌈(1 : ℚ) / e⌉₊ : ℚ) := Nat.le_ceil _
  have h2 : (⌈(1 : ℚ) / e⌉₊ : ℕ) ≤ 2 ^ Nat.clog 2 ⌈(1 : ℚ) / e⌉₊ :=
    Nat.le_pow_clog (by norm_num) _
  have h3 : (1 : ℚ) / e ≤ 2 ^ Nat.clog 2 ⌈(1 : ℚ) / e⌉₊ := by
    calc (1 : ℚ) / e ≤ (⌈(1 : ℚ) / e⌉₊ : ℚ) := h1
      _ ≤ ((2 ^ Nat.clog 2 ⌈(1 : ℚ) / e⌉₊ : ℕ) : ℚ) := by exact_mod_cast h2
      _ = 2 ^ Nat.clog 2 ⌈(1 : ℚ) / e⌉₊ := by push_cast; ring
  calc (1 : ℚ) = (1 / e) * e := by field_simp
    _ ≤ 2 ^ Nat.clog 2 ⌈(1 : ℚ) / e⌉₊ * e :=
      mul_le_mul_of_nonneg_right h3 (le_of_lt he)

lemma clog_le_ceil_self (e : ℚ) :
    Nat.clog 2 ⌈(1 : ℚ) / e⌉₊ ≤ ⌈(1 : ℚ) / e⌉₊ := by
  calc Nat.clog 2 ⌈(1 : ℚ) / e⌉₊ ≤ Nat.clog 2 (2 ^ ⌈(1 : ℚ) / e⌉₊) :=
        Nat.clog_mono_right 2 (le_of_lt (Nat.lt_two_pow _))
    _ = ⌈(1 : ℚ) / e⌉₊ := Nat.clog_pow 2 _ (by norm_num)

/-- Claim C6: for every error bound `e > 0` the bisection loop of `find_p`
terminates, and the number of executions of the loop body, starting from the
initial state `low = 0`, `high = 1`, `p = 1/2`, is at most
`Nat.clog 2 ⌈1/e⌉₊ = ⌈log₂(1/e)⌉` (20 iterations for `e = 10⁻⁶`), for all
target fractions, `n` and `total_n`.  Termination is expressed by fuel
stabilisation: every fuel at least `⌈log₂(1/e)⌉` gives the same run, and
`find_p`'s own fuel is sufficient. -/
theorem find_p_loop_iteration_bound (frac : ℚ) (n : ℕ) (total_n : Option ℕ)
    (e : ℚ) (fuel : ℕ) (he : 0 < e)
    (hfuel : Nat.clog 2 ⌈(1 : ℚ) / e⌉₊ ≤ fuel) :
    (findPAux frac n total_n e fuel 0 1 ((0 + 1) / 2)).2 ≤
      Nat.clog 2 ⌈(1 : ℚ) / e⌉₊ ∧
    findPAux frac n total_n e fuel 0 1 ((0 + 1) / 2) =
      findPAux frac n total_n e (Nat.clog 2 ⌈(1 : ℚ) / e⌉₊) 0 1 ((0 + 1) / 2) ∧
    find_p frac n total_n e =
      (findPAux frac n total_n e (Nat.clog 2 ⌈(1 : ℚ) / e⌉₊) 0 1 ((0 + 1) / 2)).1 := by
  have hw : (1 : ℚ) - 0 ≤ 2 ^ (Nat.clog 2 ⌈(1 : ℚ) / e⌉₊) * e := by
    have := one_le_two_pow_clog_mul e he
    linarith
  refine ⟨?_, ?_, ?_⟩
  · exact findPAux_count_le frac n total_n e _ fuel 0 1 _ (by norm_num) hw
  · exact findPAux_stable frac n total_n e _ fuel _ 0 1 _ (by norm_num) hw hfuel
      (le_refl _)
  · unfold find_p
    rw [findPAux_stable frac n total_n e _ _ _ 0 1 _ (by norm_num) hw
      (clog_le_ceil_self e) (le_refl _)]

/-- Witness for claim C6 at `e = 1/4`, `fuel = 2` (so `⌈log₂(1/e)⌉ = 2`). -/
theorem find_p_loop_iteration_bound_witness :
    ((0 : ℚ) < 1/4 ∧ Nat.clog 2 ⌈(1 : ℚ) / (1/4)⌉₊ ≤ 2) ∧
    (findPAux (1/2) 10 none (1/4) 2 0 1 ((0 + 1) / 2)).2 ≤
      Nat.clog 2 ⌈(1 : ℚ) / (1/4)⌉₊ :=
  ⟨⟨by norm_num,
    by
      rw [show (1 : ℚ) / (1/4) = 4 by norm_num, show ⌈(4 : ℚ)⌉₊ = 4 by norm_num,
        show (4 : ℕ) = 2 ^ 2 by norm_num, Nat.clog_pow 2 2 (by norm_num)]⟩,
    (find_p_loop_iteration_bound (1/2) 10 none (1/4) 2 (by norm_num)
      (by
        rw [show (1 : ℚ) / (1/4) = 4 by norm_num, show ⌈(4 : ℚ)⌉₊ = 4 by norm_num,
          show (4 : ℕ) = 2 ^ 2 by norm_num, Nat.clog_pow 2 2 (by norm_num)])).1⟩

lemma findPAux_roundtrip (n : ℕ) (p0 e : ℚ) (hn : 1 ≤ n) (hp0 : 0 < p0)
    (hp1 : p0 < 1) (he : 0 < e) :
    ∀ (fuel : ℕ) (low high p : ℚ), 0 ≤ low → high ≤ 1 → low < high →
      p = (low + high) / 2 → low ≤ p0 → p0 ≤ high →
      high - low ≤ 2 ^ fuel * e →
      |(findPAux (compute_weight_frac p0 n none) n none e fuel low high p).1 - p0| ≤ e := by
  intro fuel
  induction fuel with
  | zero =>
    intro low high p hl hh hlh hp hlp0 hp0h hw
    rw [pow_zero, one_mul] at hw
    rw [findPAux_zero]
    subst hp
    rw [abs_le]
    constructor <;> linarith
  | succ f ih =>
    intro low high p hl hh hlh hp hlp0 hp0h hw
    rw [pow_succ] at hw
    rw [findPAux_succ]
    have hp_pos : 0 < p := by subst hp; linarith
    have hp_lt1 : p < 1 := by subst hp; linarith
    have hfrac0 : compute_weight_frac p0 n none = 1 - p0 ^ n :=
      compute_weight_frac_none p0 (ne_of_lt hp1) n
    have hfracp : compute_weight_frac p n none = 1 - p ^ n :=
      compute_weight_frac_none p (ne_of_lt hp_lt1) n
    by_cases hc : e < high - low
    · rw [if_pos hc]
      by_cases hgt : compute_weight_frac p0 n none < compute_weight_frac p n none
      · rw [if_pos hgt]
        have hplt : p < p0 := by
          by_contra hge
          push_neg at hge
          have := pow_le_pow_left₀ (le_of_lt hp0) hge n
          rw [hfrac0, hfracp] at hgt
          linarith
        simp only []
        exact ih p high ((p + high) / 2) (le_of_lt hp_pos) hh (by subst hp; linarith)
          rfl (le_of_lt hplt) hp0h (by subst hp; linarith)
      · rw [if_neg hgt]
        by_cases hlt : compute_weight_frac p n none < compute_weight_frac p0 n none
        · rw [if_pos hlt]
          have hpgt : p0 < p := by
            by_contra hge
            push_neg at hge
            have := pow_le_pow_left₀ (le_of_lt hp_pos) hge n
            rw [hfrac0, hfracp] at hlt
            linarith
          simp only []
          exact ih low p ((low + p) / 2) hl (le_of_lt hp_lt1) (by subst hp; linarith)
            rfl hlp0 (le_of_lt hpgt) (by subst hp; linarith)
        · rw [if_neg hlt]
          have heq : p ^ n = p0 ^ n := by
            rw [hfrac0, hfracp] at hgt hlt
            push_neg at hgt hlt
            have h1 : p0 ^ n ≤ p ^ n := by linarith
            have h2 : p ^ n ≤ p0 ^ n := by linarith
            exact le_antisymm h2 h1
          have hpp0 : p = p0 := by
            rcases lt_trichotomy p p0 with h | h | h
            · have hlt2 := pow_lt_pow_left₀ h (le_of_lt hp_pos) (by omega : n ≠ 0)
              rw [heq] at hlt2
              exact absurd hlt2 (lt_irrefl _)
            · exact h
            · have hlt2 := pow_lt_pow_left₀ h (le_of_lt hp0) (by omega : n ≠ 0)
              rw [heq] at hlt2
              exact absurd hlt2 (lt_irrefl _)
          simp only []
          rw [hpp0, sub_self, abs_zero]
          exact le_of_lt he
    · rw [if_neg hc]
      push_neg at hc
      simp only []
      subst hp
      rw [abs_le]
      constructor <;> linarith

/-- Claim C3: calibration round-trip.  For every recent count `n ≥ 1`, every
`p0 ∈ (0, 1)` and every error bound `e > 0` (in particular the default
`10⁻⁶`), `find_p (compute_weight_frac p0 n none) n none e` returns a value
within `e` of `p0`.  In exact arithmetic the bracket always contains `p0`
and shrinks below `e`, so no extra boundary margin is needed. -/
theorem find_p_roundtrip (n : ℕ) (p0 e : ℚ) (hn : 1 ≤ n) (hp0 : 0 < p0)
    (hp1 : p0 < 1) (he : 0 < e) :
    |find_p (compute_weight_frac p0 n none) n none e - p0| ≤ e := by
  have hw : (1 : ℚ) - 0 ≤ 2 ^ (Nat.clog 2 ⌈(1 : ℚ) / e⌉₊) * e := by
    have := one_le_two_pow_clog_mul e he
    linarith
  unfold find_p
  rw [findPAux_stable (compute_weight_frac p0 n none) n none e _ _ _ 0 1 _
    (by norm_num) hw (clog_le_ceil_self e) (le_refl _)]
  exact findPAux_roundtrip n p0 e hn hp0 hp1 he _ 0 1 _ (by norm_num) (by norm_num)
    (by norm_num) (by norm_num) (le_of_lt hp0) (le_of_lt hp1) hw

/-- Witness for claim C3 at `n = 2`, `p0 = 1/2`, `e = 1/4`. -/
theorem find_p_roundtrip_witness :
    (1 ≤ 2 ∧ (0 : ℚ) < 1/2 ∧ (1/2 : ℚ) < 1 ∧ (0 : ℚ) < 1/4) ∧
    |find_p (compute_weight_frac (1/2) 2 none) 2 none (1/4) - 1/2| ≤ 1/4 :=
  ⟨⟨by norm_num, by norm_num, by norm_num, by norm_num⟩,
    find_p_roundtrip 2 (1/2) (1/4) (by norm_num) (by norm_num) (by norm_num)
      (by norm_num)⟩
